import Mathlib

/-!
Verification of the `garde_derive` validation compiler
(`src/garde_derive/src/lib.rs`, 858 lines).

The development shallowly embeds the derive macro: the rule model
(`Rule`, its discriminant-based equality and ordering), the definition
validator (`parse_fields`, `parse_context`, `parse_input_kind`,
`derive_validate`), the argument parsers (`parse_rule_length`), and the
runtime semantics of the synthesized validator (`Field::emit`,
`Validation::to_tokens`, `VariantKind::to_tokens`).

Diagnostic message rendering and source locations are out of scope
(per the specification), so definition errors are modelled as an
inductive datatype carrying exactly the data interpolated into the
message, and spans are dropped.
-/

namespace Garde

/-- Rust types appearing in the derive input are opaque here: only their
textual identity matters to the embedding (`syn::Type`). -/
abbrev Ty := String

/-- Model of the `syn::Expr` argument forms the derive inspects:
integer literals (for `length`), closures and paths (for `custom`),
and everything else. Arbitrary-precision literal digits are a `Nat`. -/
inductive RsExpr where
  | intLit (n : Nat)
  | closure
  | path (s : String)
  | other
deriving DecidableEq

/-- `usize::MAX` on a 64-bit target; used by `base10_parse::<usize>`
and by the `length` rule's default `max` (lib.rs line 556). -/
def usizeMax : Nat := 2 ^ 64 - 1

/-- The rule catalog, lib.rs lines 500-524 (`enum Rule`, `repr(u8)`).
`Prefix`/`Suffix` are named `startsWith`/`endsWith` here. -/
inductive Rule where
  | ascii
  | alphanumeric
  | email
  | url
  | ip
  | ipV4
  | ipV6
  | creditCard
  | phoneNumber
  | length (min max : Option Nat)
  | range (min max : Option RsExpr)
  | contains (s : String)
  | startsWith (s : String)
  | endsWith (s : String)
  | pattern (s : String)
  | custom (e : RsExpr)
deriving DecidableEq

/-- `Rule::discriminant` (lib.rs lines 839-847): the `repr(u8)` tag,
assigned 0.. in declaration order. -/
def Rule.discriminant : Rule → Nat
  | .ascii => 0
  | .alphanumeric => 1
  | .email => 2
  | .url => 3
  | .ip => 4
  | .ipV4 => 5
  | .ipV6 => 6
  | .creditCard => 7
  | .phoneNumber => 8
  | .length _ _ => 9
  | .range _ _ => 10
  | .contains _ => 11
  | .startsWith _ => 12
  | .endsWith _ => 13
  | .pattern _ => 14
  | .custom _ => 15

/-- The kind (constructor) of a rule, forgetting its arguments. -/
inductive RuleKind where
  | ascii | alphanumeric | email | url | ip | ipV4 | ipV6
  | creditCard | phoneNumber | length | range | contains
  | startsWith | endsWith | pattern | custom
deriving DecidableEq

/-- The kind of a rule, independent of its arguments. -/
def Rule.kind : Rule → RuleKind
  | .ascii => .ascii
  | .alphanumeric => .alphanumeric
  | .email => .email
  | .url => .url
  | .ip => .ip
  | .ipV4 => .ipV4
  | .ipV6 => .ipV6
  | .creditCard => .creditCard
  | .phoneNumber => .phoneNumber
  | .length _ _ => .length
  | .range _ _ => .range
  | .contains _ => .contains
  | .startsWith _ => .startsWith
  | .endsWith _ => .endsWith
  | .pattern _ => .pattern
  | .custom _ => .custom

/-- `impl PartialEq for Rule` (lib.rs lines 831-835): two rules are
equal when their `mem::discriminant`s coincide, i.e. when their
`repr(u8)` tags coincide. `BTreeSet` lookups use the same comparison
through `Ord` (lines 849-859). -/
def ruleEqb (a b : Rule) : Bool := a.discriminant == b.discriminant

/-- `Rule::name` (lib.rs lines 594-615). Note `Range` is named
`"bounds"`. -/
def Rule.name : Rule → String
  | .ascii => "ascii"
  | .alphanumeric => "alphanumeric"
  | .email => "email"
  | .url => "url"
  | .ip => "ip"
  | .ipV4 => "ipv4"
  | .ipV6 => "ipv6"
  | .creditCard => "credit_card"
  | .phoneNumber => "phone_number"
  | .length _ _ => "length"
  | .range _ _ => "bounds"
  | .contains _ => "contains"
  | .startsWith _ => "prefix"
  | .endsWith _ => "suffix"
  | .pattern _ => "pattern"
  | .custom _ => "custom"

/-- `BTreeSet<Rule>::contains` under the discriminant `Ord`
(lib.rs line 407). -/
def containsRule (rules : List Rule) (r : Rule) : Bool :=
  rules.any (fun x => ruleEqb x r)

/-- `BTreeSet<Rule>::insert` (lib.rs line 415) on the sorted-list model
of the set: insert in ascending discriminant position; an
already-present discriminant leaves the set unchanged. -/
def insertRule (r : Rule) : List Rule → List Rule
  | [] => [r]
  | x :: xs =>
    if r.discriminant < x.discriminant then r :: x :: xs
    else if r.discriminant == x.discriminant then x :: xs
    else x :: insertRule r xs

/-- Strict ascending discriminant order of a rule list: the iteration
order of the `BTreeSet<Rule>` under `impl Ord for Rule`
(lib.rs lines 849-859). -/
def sortedByDisc : List Rule → Bool
  | [] => true
  | [_] => true
  | a :: b :: rest =>
    decide (a.discriminant < b.discriminant) && sortedByDisc (b :: rest)

/-- Definition errors (`syn::Error` diagnostics), modelled as the data
interpolated into the message; rendering and spans are out of scope. -/
inductive DefError where
  /-- "`<name>` may not be used together with `dive`" (lib.rs 397-403) -/
  | ruleWithDive (name : String)
  /-- "duplicate rule `<name>`" (lib.rs 408-411) -/
  | duplicateRule (name : String)
  /-- "duplicate attribute `<name>`" (lib.rs 421, 428, 435) -/
  | duplicateAttr (name : String)
  /-- "unrecognized rule" (lib.rs 442) -/
  | unrecognizedRule
  /-- "field has no validation, use `#[garde(skip)]` ..." (lib.rs 451-454) -/
  | noValidation
  /-- "unrecognized attribute" from `parse_context_meta` (lib.rs 157) -/
  | unrecognizedAttr
  /-- a `syn` parse failure inside an attribute's argument list -/
  | synParse
  /-- "unions are not supported" (lib.rs 191-194) -/
  | unionsNotSupported
  /-- "duplicate attribute" on a repeated `min`/`max` argument
  (lib.rs 696, 713, 756, 761) -/
  | duplicateArg
  /-- "value must be a valid `usize`" (lib.rs 704-707, 721-724) -/
  | valueMustBeUsize
  /-- the `?`-propagated `base10_parse::<usize>` overflow error
  (lib.rs 702, 719) -/
  | intOverflow
  /-- "unexpected `<path>`" (lib.rs 729-732, 765-768) -/
  | unexpectedArg (path : String)
  /-- "min must be smaller than max" (lib.rs 737) -/
  | minNotLessThanMax
  /-- "please provide at least one of: `min`, `max`" (lib.rs 740-743, 772-775) -/
  | atLeastOneOfMinMax
deriving DecidableEq

/-- The field-level markers, `enum Attr` (lib.rs lines 472-476). -/
inductive Attr where
  | rename (v : String)
  | dive
  | skip
deriving DecidableEq

/-- One parsed annotation token, `enum RuleOrAttr` (lib.rs 466-470);
spans are dropped. -/
inductive RuleOrAttr where
  | rule (r : Rule)
  | attr (a : Attr)
  | unknown
deriving DecidableEq

/-- One attribute on a field as the derive sees it: not a `#[garde]`
attribute, a `#[garde(...)]` whose argument list fails to parse
(lib.rs 383-391), or a successfully parsed annotation list. -/
inductive SynAttr where
  | notGarde
  | gardeBad
  | garde (metas : List RuleOrAttr)
deriving DecidableEq

/-- A `syn::Field` as consumed by `parse_fields`: its optional
identifier, its type, and its attributes. -/
structure SynField where
  ident : Option String
  ty : Ty
  attrs : List SynAttr
deriving DecidableEq

/-- `struct Field` (lib.rs lines 303-307). -/
structure Field where
  ty : Ty
  dive : Bool
  rules : List Rule
deriving DecidableEq

/-- The per-field mutable state of the `parse_fields` loop
(lib.rs lines 368-371): `skip`, `dive`, `alias`, `rules`, plus the
errors pushed so far for this field. -/
structure FieldState where
  skip : Bool
  dive : Bool
  aliasName : Option String
  rules : List Rule
  errs : List DefError
deriving DecidableEq

/-- Initial state of the `parse_fields` loop for one field. -/
def initFieldState : FieldState :=
  { skip := false, dive := false, aliasName := none, rules := [], errs := [] }

/-- One iteration of the `for meta in meta_list` loop
(lib.rs lines 393-445). -/
def processMeta (s : FieldState) (m : RuleOrAttr) : FieldState :=
  match m with
  | .rule r =>
    if s.dive then
      { s with errs := s.errs ++ [.ruleWithDive r.name] }
    else if containsRule s.rules r then
      { s with errs := s.errs ++ [.duplicateRule r.name] }
    else
      { s with rules := insertRule r s.rules }
  | .attr (.rename v) =>
    if s.aliasName.isSome then
      { s with errs := s.errs ++ [.duplicateAttr "rename"] }
    else
      { s with aliasName := some v }
  | .attr .dive =>
    if s.dive then
      { s with errs := s.errs ++ [.duplicateAttr "dive"] }
    else
      { s with dive := true }
  | .attr .skip =>
    if s.skip then
      { s with errs := s.errs ++ [.duplicateAttr "skip"] }
    else
      { s with skip := true }
  | .unknown =>
    { s with errs := s.errs ++ [.unrecognizedRule] }

/-- One iteration of the `for attr in field.attrs` loop
(lib.rs lines 373-448). -/
def processAttr (s : FieldState) (a : SynAttr) : FieldState :=
  match a with
  | .notGarde => s
  | .gardeBad => { s with errs := s.errs ++ [.synParse] }
  | .garde metas => metas.foldl processMeta s

/-- The state at the end of the attribute loop for one field. -/
def parseFieldState (f : SynField) : FieldState :=
  f.attrs.foldl processAttr initFieldState

/-- Processing of one field by `parse_fields` (lib.rs lines 362-461):
the errors pushed for this field, and the `(ident, Field)` pushed onto
the output (none when the field is skipped or rejected as having no
validation). The parsed `alias` is dropped here exactly as in the
source: `out.push((ident, Field { ty, dive, rules }))` (line 459). -/
def parseField (f : SynField) : List DefError × Option (Option String × Field) :=
  let s := parseFieldState f
  if !s.dive && s.rules.isEmpty && !s.skip then
    (s.errs ++ [.noValidation], none)
  else if s.skip then
    (s.errs, none)
  else
    (s.errs, some (f.ident, { ty := f.ty, dive := s.dive, rules := s.rules }))

/-- `parse_fields` (lib.rs lines 356-464): the loop appends each
field's errors to the shared error vector and pushes the kept fields
in order. -/
def parseFields (fs : List SynField) : List DefError × List (Option String × Field) :=
  (fs.flatMap (fun f => (parseField f).1), fs.filterMap (fun f => (parseField f).2))

/-- A top-level attribute on the derive input as `parse_context`
(lib.rs lines 137-152) sees it: not a `#[garde]` attribute, a
`#[garde(...)]` whose arguments fail `parse_context_meta` with the
given error, or a successfully parsed `context(T)` declaration. -/
inductive CtxAttr where
  | notGarde
  | bad (e : DefError)
  | ok (ty : Ty)
deriving DecidableEq

/-- The projection used to state that `parse_context`'s errors are
exactly the per-attribute parse failures. -/
def ctxBadErr : CtxAttr → Option DefError
  | .bad e => some e
  | _ => none

/-- The projection of the successfully parsed `context(T)` types. -/
def ctxOkTy : CtxAttr → Option Ty
  | .ok ty => some ty
  | _ => none

/-- One iteration of the `for attr in attrs` loop of `parse_context`
(lib.rs lines 139-150): a parse failure is pushed onto the error
vector and the loop continues; a successful parse overwrites `inner`
unconditionally. -/
def ctxStep (acc : List DefError × Option Ty) (a : CtxAttr) :
    List DefError × Option Ty :=
  match a with
  | .notGarde => acc
  | .bad e => (acc.1 ++ [e], acc.2)
  | .ok ty => (acc.1, some ty)

/-- `parse_context` (lib.rs lines 137-152). -/
def parseContext (attrs : List CtxAttr) : List DefError × Option Ty :=
  attrs.foldl ctxStep ([], none)

/-- `impl ToTokens for Context` (lib.rs lines 128-135): the declared
type, or the unit type `()` when none was declared. -/
def contextTokens : Option Ty → Ty
  | some ty => ty
  | none => "()"

/-- `enum VariantKind` (lib.rs lines 203-207). -/
inductive VariantKind where
  | unit
  | struct (fields : List (String × Field))
  | tuple (fields : List Field)
deriving DecidableEq

/-- `struct Variant` (lib.rs lines 198-201). -/
structure Variant where
  ident : String
  kind : VariantKind
deriving DecidableEq

/-- `enum InputKind` (lib.rs lines 164-168). -/
inductive InputKind where
  | fieldStruct (fields : List (String × Field))
  | tupleStruct (fields : List Field)
  | enumKind (variants : List Variant)
deriving DecidableEq

/-- The three `syn::Fields` forms. -/
inductive SynFieldsKind where
  | named (fs : List SynField)
  | unnamed (fs : List SynField)
  | unitFields
deriving DecidableEq

/-- A `syn::Variant`: its identifier and its fields. -/
structure SynVariant where
  ident : String
  fields : SynFieldsKind
deriving DecidableEq

/-- `syn::Data`: struct, enum, or union input. -/
inductive Data where
  | dataStruct (fields : SynFieldsKind)
  | dataEnum (variants : List SynVariant)
  | dataUnion
deriving DecidableEq

/-- `parse_variants` (lib.rs lines 274-301): every variant's fields go
through `parse_fields`; the errors accumulate across variants. -/
def parseVariants (vs : List SynVariant) : List DefError × List Variant :=
  (vs.flatMap
     (fun v =>
       match v.fields with
       | .named fs => (parseFields fs).1
       | .unnamed fs => (parseFields fs).1
       | .unitFields => []),
   vs.map
     (fun v =>
       { ident := v.ident,
         kind :=
           match v.fields with
           | .named fs => .struct ((parseFields fs).2.map (fun p => (p.1.getD "", p.2)))
           | .unnamed fs => .tuple ((parseFields fs).2.map (fun p => p.2))
           | .unitFields => .unit }))

/-- `parse_input_kind` (lib.rs lines 170-196): the errors pushed while
parsing the fields, and either the parsed `InputKind` or the
"unions are not supported" error. `ident.unwrap()` on named fields is
modelled by `Option.getD` with a default that never occurs, since
`syn` guarantees named fields carry identifiers. -/
def parseInputKind (d : Data) : List DefError × Except DefError InputKind :=
  match d with
  | .dataStruct (.named fs) =>
    ((parseFields fs).1,
     .ok (.fieldStruct ((parseFields fs).2.map (fun p => (p.1.getD "", p.2)))))
  | .dataStruct (.unnamed fs) =>
    ((parseFields fs).1, .ok (.tupleStruct ((parseFields fs).2.map (fun p => p.2))))
  | .dataStruct .unitFields => ([], .ok (.tupleStruct []))
  | .dataEnum vs => ((parseVariants vs).1, .ok (.enumKind (parseVariants vs).2))
  | .dataUnion => ([], .error .unionsNotSupported)

/-- `struct Validation` (lib.rs lines 57-62): the data the emitted
`impl Validate` is built from. Generics are dropped (they are passed
through verbatim and play no role in any claim). -/
structure Validation where
  ident : String
  context : Option Ty
  inner : InputKind
deriving DecidableEq

/-- A `DeriveInput`: identifier, top-level attributes, and data. -/
structure DeriveInput where
  ident : String
  attrs : List CtxAttr
  data : Data
deriving DecidableEq

/-- The output of the derive macro: either the compile errors emitted
by `emit_errors` (lib.rs lines 46-55), or the `impl Validate`. -/
inductive DeriveOutput where
  | errors (es : List DefError)
  | impl (v : Validation)
deriving DecidableEq

/-- `derive_validate` (lib.rs lines 13-44): collect context errors,
then field errors; a union aborts with its error appended; otherwise
the impl is emitted only when the error vector stayed empty. -/
def deriveValidate (input : DeriveInput) : DeriveOutput :=
  let ce := (parseContext input.attrs).1
  let ctx := (parseContext input.attrs).2
  match parseInputKind input.data with
  | (fe, .error e) => .errors (ce ++ fe ++ [e])
  | (fe, .ok inner) =>
    if (ce ++ fe).isEmpty then
      .impl { ident := input.ident, context := ctx, inner := inner }
    else
      .errors (ce ++ fe)

/-- All definition errors `derive_validate` collects for an input, in
the order they are pushed. -/
def deriveErrors (input : DeriveInput) : List DefError :=
  let ce := (parseContext input.attrs).1
  match parseInputKind input.data with
  | (fe, .error e) => ce ++ fe ++ [e]
  | (fe, .ok _) => ce ++ fe

/-- Whether the derive produced an `impl` (reached synthesis). -/
def DeriveOutput.isImpl : DeriveOutput → Bool
  | .impl _ => true
  | .errors _ => false

/-- A runtime rule-violation error. The concrete error values come
from the external rule evaluators; only their identity matters. -/
abbrev RuleError := String

/-- Modelled from the spec: the runtime error tree (`garde::error::Errors`,
declared in the runtime crate, which is not under `src/`): `Empty`, a
`Simple` ordered list of rule-violation errors for a leaf field, a
`FieldMap` from field key to subtree for record shapes, and a `List`
of positionally indexed subtrees for tuple shapes. -/
inductive Errors where
  | empty
  | simple (es : List RuleError)
  | fields (entries : List (String × Errors))
  | list (entries : List Errors)

/-- Modelled from the spec: emptiness of the whole tree — "no leaf
holds a non-empty Simple" — is the success predicate
(`Errors::is_empty`, runtime crate, not under `src/`). -/
def Errors.isEmpty : Errors → Bool
  | .empty => true
  | .simple es => es.isEmpty
  | .fields [] => true
  | .fields ((_, e) :: rest) => e.isEmpty && (Errors.fields rest).isEmpty
  | .list [] => true
  | .list (e :: rest) => e.isEmpty && (Errors.list rest).isEmpty

/-- The external collaborators of one emitted field: `applyRule r ctx`
is the result of the emitted call `(#rule)(#access, #args)` for rule
`r` (with `ctx` in scope, used by `custom` rules), and
`nestedValidate ctx` is the result of the emitted
`::garde::validate::Validate::validate(#access, ctx)` call. Both are
functions of the context to make the context threading visible. -/
structure FieldOracle (γ : Type) where
  applyRule : Rule → γ → Option RuleError
  nestedValidate : γ → Except Errors Unit

/-- Runtime semantics of the code emitted by `Field::emit`
(lib.rs lines 316-354) for one field: a `dive` field contributes the
nested `validate`'s error tree verbatim (`.err().unwrap_or_else(empty)`,
lines 329-333); otherwise the emitted `Errors::simple` closure runs
every rule in the `BTreeSet`'s iteration order and pushes one error
per failing rule (lines 334-345). -/
def Field.run {γ : Type} (f : Field) (o : FieldOracle γ) (ctx : γ) : Errors :=
  if f.dive then
    match o.nestedValidate ctx with
    | .error e => e
    | .ok _ => .empty
  else
    .simple (f.rules.filterMap (fun r => o.applyRule r ctx))

/-- Runtime semantics of the `Errors::fields` closure emitted for a
record shape (lib.rs lines 71-81): one `errors.insert(key, ...)` per
field, in declaration order. Each field is paired with its oracle
(its accessed value's external evaluators). -/
def validateFieldStruct {γ : Type} (fields : List ((String × Field) × FieldOracle γ))
    (ctx : γ) : Errors :=
  .fields (fields.map (fun x => (x.1.1, x.1.2.run x.2 ctx)))

/-- Runtime semantics of the `Errors::list` closure emitted for a
tuple shape (lib.rs lines 82-93): one `errors.push(...)` per field,
in declaration order. -/
def validateTupleStruct {γ : Type} (fields : List (Field × FieldOracle γ))
    (ctx : γ) : Errors :=
  .list (fields.map (fun x => x.1.run x.2 ctx))

/-- The tail of the generated `validate` body (lib.rs lines 110-117):
`let errors = #inner; if !errors.is_empty() { return Err(errors); }
Ok(())`. -/
def runValidate (t : Errors) : Except Errors Unit :=
  if !t.isEmpty then .error t else .ok ()

/-- The right-hand side of the match arm `VariantKind::to_tokens`
emits for a variant (lib.rs lines 209-243): the empty block `=> \x7b\x7d`
for a unit variant (line 212), an `Errors::fields(...)` call for a
record-like variant, an `Errors::list(...)` call for a tuple-like
variant. -/
inductive ArmBody where
  | emptyBlock
  | fieldsCall (fields : List (String × Field))
  | listCall (fields : List Field)
deriving DecidableEq

/-- `VariantKind::to_tokens` (lib.rs lines 209-243) at the level of
the arm's right-hand side. -/
def VariantKind.armBody : VariantKind → ArmBody
  | .unit => .emptyBlock
  | .struct fs => .fieldsCall fs
  | .tuple fs => .listCall fs

/-- Whether the arm's right-hand side is an expression of type
`Errors`. The `Errors::fields`/`Errors::list` calls are; the empty
block `\x7b\x7d` has the unit type `()`. -/
def ArmBody.isErrorsTyped : ArmBody → Bool
  | .emptyBlock => false
  | .fieldsCall _ => true
  | .listCall _ => true

/-- Whether the `impl` generated for an enum type-checks: the emitted
`let errors = match self { ... };` (lib.rs lines 97-101, 110) needs
every arm to produce the `Errors` value that `errors.is_empty()` is
then called on (line 112), so every arm must have type `Errors`. -/
def enumImplWellTyped (vs : List Variant) : Bool :=
  vs.all (fun v => v.kind.armBody.isErrorsTyped)

/-- Runtime value of a variant's match arm, for arms that do produce
an `Errors` value; the unit-variant arm produces none (its value is
the unit value `()`). -/
def ArmBody.result {γ : Type} (a : ArmBody)
    (os : List (FieldOracle γ)) (ctx : γ) : Option Errors :=
  match a with
  | .emptyBlock => none
  | .fieldsCall fs => some (validateFieldStruct (fs.zip os) ctx)
  | .listCall fs => some (validateTupleStruct (fs.zip os) ctx)

/-- A `MetaNameValue` argument `path = value` as consumed by
`parse_rule_length` / `parse_rule_range` (lib.rs 690, 750). -/
structure MetaNameValue where
  path : String
  value : RsExpr
deriving DecidableEq

/-- One iteration of the `for part in parts.iter()` loop of
`parse_rule_length` (lib.rs lines 693-734), with the `?`-style early
return threaded through the accumulator. -/
def lengthStep (acc : Except DefError (Option Nat × Option Nat)) (p : MetaNameValue) :
    Except DefError (Option Nat × Option Nat) :=
  match acc with
  | .error e => .error e
  | .ok (mn, mx) =>
    if p.path == "min" then
      if mn.isSome then .error .duplicateArg
      else
        match p.value with
        | .intLit n => if n ≤ usizeMax then .ok (some n, mx) else .error .intOverflow
        | _ => .error .valueMustBeUsize
    else if p.path == "max" then
      if mx.isSome then .error .duplicateArg
      else
        match p.value with
        | .intLit n => if n ≤ usizeMax then .ok (mn, some n) else .error .intOverflow
        | _ => .error .valueMustBeUsize
    else
      .error (.unexpectedArg p.path)

/-- `parse_rule_length` (lib.rs lines 689-748): the argument loop,
then the final `(min, max)` checks — `min >= max` when both are
present is an error, and both absent is an error. -/
def parseRuleLength (parts : List MetaNameValue) : Except DefError Rule :=
  match parts.foldl lengthStep (.ok (none, none)) with
  | .error e => .error e
  | .ok (mn, mx) =>
    match mn, mx with
    | some a, some b =>
      if a ≥ b then .error .minNotLessThanMax else .ok (.length mn mx)
    | none, none => .error .atLeastOneOfMinMax
    | _, _ => .ok (.length mn mx)

/-- Whether an expression is an integer literal whose value
`base10_parse::<usize>` accepts. -/
def isUsizeIntLit : RsExpr → Bool
  | .intLit n => n ≤ usizeMax
  | _ => false

/-- The `min` value among the arguments, read off the first `min`
argument when it is a valid `usize` literal. -/
def specMinVal (parts : List MetaNameValue) : Option Nat :=
  (parts.find? (fun p => p.path == "min")).bind
    (fun p => match p.value with
      | .intLit n => if n ≤ usizeMax then some n else none
      | _ => none)

/-- The `max` value among the arguments, read off the first `max`
argument when it is a valid `usize` literal. -/
def specMaxVal (parts : List MetaNameValue) : Option Nat :=
  (parts.find? (fun p => p.path == "max")).bind
    (fun p => match p.value with
      | .intLit n => if n ≤ usizeMax then some n else none
      | _ => none)

/-- Whether an argument is named `min`. -/
def isMinPart (p : MetaNameValue) : Bool := p.path == "min"

/-- Whether an argument is named `max`. -/
def isMaxPart (p : MetaNameValue) : Bool := p.path == "max"

/-- How many `min` (resp. `max`) slots an already-filled accumulator
occupies: one when a value is present. -/
def optBudget (o : Option Nat) : Nat := if o.isSome then 1 else 0

/-- The invariant under which the argument loop of `parse_rule_length`
runs to completion from an accumulator `(mn, mx)`: every remaining
argument is named `min` or `max` with a value `base10_parse::<usize>`
accepts, and neither name occurs more often than its remaining slot
allows. -/
def lengthOkCond (ps : List MetaNameValue) (mn mx : Option Nat) : Prop :=
  (∀ p ∈ ps, (p.path = "min" ∨ p.path = "max") ∧ isUsizeIntLit p.value = true)
  ∧ optBudget mn + ps.countP isMinPart ≤ 1
  ∧ optBudget mx + ps.countP isMaxPart ≤ 1

/-- The claim's acceptance condition for `length(...)`, written in the
specification's words: every argument is named `min` or `max` with a
non-negative integer literal value (one `base10_parse::<usize>`
accepts), no argument name is repeated, at least one of `min`/`max` is
present, and whenever both are present `min < max`. -/
def LengthSpec (parts : List MetaNameValue) : Prop :=
  (∀ p ∈ parts, (p.path = "min" ∨ p.path = "max") ∧ isUsizeIntLit p.value = true)
  ∧ parts.countP isMinPart ≤ 1
  ∧ parts.countP isMaxPart ≤ 1
  ∧ ((∃ p ∈ parts, p.path = "min") ∨ (∃ p ∈ parts, p.path = "max"))
  ∧ (∀ a b, specMinVal parts = some a → specMaxVal parts = some b → a < b)

/-- Whether an `Except` result is a success. -/
def exceptOk {ε α : Type} : Except ε α → Bool
  | .ok _ => true
  | .error _ => false

/-- The entry list the emitted `Errors::fields`/`Errors::list` closure
builds for a record shape: one entry per field, in declaration order. -/
def structEntries {γ : Type} (l : List ((String × Field) × FieldOracle γ))
    (ctx : γ) : List (String × Errors) :=
  l.map (fun x => (x.1.1, x.1.2.run x.2 ctx))

/-- Concrete record field for C1: `x` carries `rename = "y"` and a
`length(min = 1)` rule. -/
def c1Field : SynField :=
  { ident := some "x", ty := "String",
    attrs := [.garde [.attr (.rename "y"), .rule (.length (some 1) none)]] }

/-- Concrete derive input for C1. -/
def c1Input : DeriveInput :=
  { ident := "S", attrs := [], data := .dataStruct (.named [c1Field]) }

/-- Concrete field for the C2 counterexample: the rule appears before
the `dive` marker. -/
def c2Field : SynField :=
  { ident := some "x", ty := "T",
    attrs := [.garde [.rule (.length (some 1) none), .attr .dive]] }

/-- Concrete field for the C2 witness: the `dive` marker appears
before the rule. -/
def c2wField : SynField :=
  { ident := some "x", ty := "T",
    attrs := [.garde [.attr .dive, .rule (.length (some 1) none)]] }

/-- Concrete field for C4: two `length` rules with different args. -/
def c4Field : SynField :=
  { ident := some "x", ty := "String",
    attrs := [.garde [.rule (.length (some 1) none), .rule (.length none (some 10))]] }

/-- Concrete derive input for C4. -/
def c4Input : DeriveInput :=
  { ident := "S", attrs := [], data := .dataStruct (.named [c4Field]) }

/-- The spec's example union for C3:
`Shape { Circle { radius: f64 [range(min = 0.0)] }, Dot }`. -/
def shapeVariants : List Variant :=
  [ { ident := "Circle",
      kind := .struct
        [("radius", { ty := "f64", dive := false,
                      rules := [Rule.range (some RsExpr.other) none] })] },
    { ident := "Dot", kind := .unit } ]

/- ----------------------------------------------------------------- -/
/- Helper lemmas                                                     -/
/- ----------------------------------------------------------------- -/

theorem processMeta_errs_prefix (s : FieldState) (m : RuleOrAttr) :
    ∃ t, (processMeta s m).errs = s.errs ++ t := by
  cases m with
  | rule r =>
    cases h : s.dive with
    | true => exact ⟨[.ruleWithDive r.name], by simp [processMeta, h]⟩
    | false =>
      cases h2 : containsRule s.rules r with
      | true => exact ⟨[.duplicateRule r.name], by simp [processMeta, h, h2]⟩
      | false => exact ⟨[], by simp [processMeta, h, h2]⟩
  | attr a =>
    cases a with
    | rename v =>
      cases h : s.aliasName.isSome with
      | true => exact ⟨[.duplicateAttr "rename"], by simp [processMeta, h]⟩
      | false => exact ⟨[], by simp [processMeta, h]⟩
    | dive =>
      cases h : s.dive with
      | true => exact ⟨[.duplicateAttr "dive"], by simp [processMeta, h]⟩
      | false => exact ⟨[], by simp [processMeta, h]⟩
    | skip =>
      cases h : s.skip with
      | true => exact ⟨[.duplicateAttr "skip"], by simp [processMeta, h]⟩
      | false => exact ⟨[], by simp [processMeta, h]⟩
  | unknown => exact ⟨[.unrecognizedRule], by simp [processMeta]⟩

theorem foldl_processMeta_errs_prefix (ms : List RuleOrAttr) (s : FieldState) :
    ∃ t, (ms.foldl processMeta s).errs = s.errs ++ t := by
  induction ms generalizing s with
  | nil => exact ⟨[], by simp⟩
  | cons m tl ih =>
    obtain ⟨t1, h1⟩ := processMeta_errs_prefix s m
    obtain ⟨t2, h2⟩ := ih (processMeta s m)
    exact ⟨t1 ++ t2, by simp [h2, h1]⟩

theorem foldl_processMeta_errs_mem (ms : List RuleOrAttr) (s : FieldState)
    (e : DefError) (h : e ∈ s.errs) : e ∈ (ms.foldl processMeta s).errs := by
  obtain ⟨t, ht⟩ := foldl_processMeta_errs_prefix ms s
  rw [ht]
  exact List.mem_append_left _ h

theorem processMeta_dive_mono (s : FieldState) (m : RuleOrAttr)
    (h : s.dive = true) : (processMeta s m).dive = true := by
  cases m with
  | rule r => simp [processMeta, h]
  | attr a =>
    cases a with
    | rename v => cases h2 : s.aliasName.isSome <;> simp [processMeta, h2, h]
    | dive => simp [processMeta, h]
    | skip => cases h2 : s.skip <;> simp [processMeta, h2, h]
  | unknown => simp [processMeta, h]

theorem processMeta_rules_frozen (s : FieldState) (m : RuleOrAttr)
    (h : s.dive = true) : (processMeta s m).rules = s.rules := by
  cases m with
  | rule r => simp [processMeta, h]
  | attr a =>
    cases a with
    | rename v => cases h2 : s.aliasName.isSome <;> simp [processMeta, h2]
    | dive => simp [processMeta, h]
    | skip => cases h2 : s.skip <;> simp [processMeta, h2]
  | unknown => simp [processMeta]

theorem foldl_processMeta_rules_frozen (ms : List RuleOrAttr) (s : FieldState)
    (h : s.dive = true) : (ms.foldl processMeta s).rules = s.rules := by
  induction ms generalizing s with
  | nil => simp
  | cons m tl ih =>
    simp only [List.foldl_cons]
    rw [ih (processMeta s m) (processMeta_dive_mono s m h)]
    exact processMeta_rules_frozen s m h

theorem processMeta_diveAttr_sets (s : FieldState) :
    (processMeta s (.attr .dive)).dive = true := by
  cases h : s.dive <;> simp [processMeta, h]

theorem foldl_processMeta_rule_err (ms : List RuleOrAttr) (s : FieldState)
    (r : Rule) (hdive : s.dive = true) (hmem : RuleOrAttr.rule r ∈ ms) :
    DefError.ruleWithDive r.name ∈ (ms.foldl processMeta s).errs := by
  induction ms generalizing s with
  | nil => cases hmem
  | cons m tl ih =>
    simp only [List.foldl_cons]
    rcases List.mem_cons.mp hmem with h | h
    · subst h
      apply foldl_processMeta_errs_mem
      simp [processMeta, hdive]
    · exact ih (processMeta s m) (processMeta_dive_mono s m hdive) h

theorem parseField_errs_mem (f : SynField) (e : DefError)
    (h : e ∈ (parseFieldState f).errs) : e ∈ (parseField f).1 := by
  unfold parseField
  dsimp only
  split
  · exact List.mem_append_left _ h
  · split
    · exact h
    · exact h

theorem sorted_cons_iff (x : Rule) (l : List Rule) :
    sortedByDisc (x :: l) = true ↔
      (sortedByDisc l = true ∧
       ∀ y, l.head? = some y → x.discriminant < y.discriminant) := by
  cases l with
  | nil => simp [sortedByDisc]
  | cons y ys =>
    simp only [sortedByDisc, Bool.and_eq_true, decide_eq_true_eq, List.head?_cons]
    constructor
    · rintro ⟨h1, h2⟩
      exact ⟨h2, fun z hz => by cases hz; exact h1⟩
    · rintro ⟨h1, h2⟩
      exact ⟨h2 y rfl, h1⟩

theorem insertRule_head? (r : Rule) (l : List Rule) :
    (insertRule r l).head? = some r ∨ (insertRule r l).head? = l.head? := by
  cases l with
  | nil => left; rfl
  | cons x xs =>
    unfold insertRule
    split
    · left; rfl
    · split
      · right; rfl
      · right; rfl

theorem insertRule_sorted (r : Rule) (l : List Rule)
    (h : sortedByDisc l = true) : sortedByDisc (insertRule r l) = true := by
  induction l with
  | nil => simp [insertRule, sortedByDisc]
  | cons x xs ih =>
    obtain ⟨hxs, hhead⟩ := (sorted_cons_iff x xs).mp h
    unfold insertRule
    split
    · rename_i hlt
      exact (sorted_cons_iff r (x :: xs)).mpr
        ⟨h, fun y hy => by cases hy; exact hlt⟩
    · split
      · exact h
      · rename_i hnlt hne
        have hxr : x.discriminant < r.discriminant := by
          have h1 : ¬ r.discriminant < x.discriminant := hnlt
          have h2 : ¬ r.discriminant = x.discriminant := by
            simpa using hne
          omega
        apply (sorted_cons_iff x (insertRule r xs)).mpr
        refine ⟨ih hxs, fun y hy => ?_⟩
        rcases insertRule_head? r xs with hh | hh
        · rw [hh] at hy; cases hy; exact hxr
        · rw [hh] at hy; exact hhead y hy

theorem processMeta_rules_sorted (s : FieldState) (m : RuleOrAttr)
    (h : sortedByDisc s.rules = true) :
    sortedByDisc (processMeta s m).rules = true := by
  cases m with
  | rule r =>
    cases h1 : s.dive with
    | true => simpa [processMeta, h1] using h
    | false =>
      cases h2 : containsRule s.rules r with
      | true => simpa [processMeta, h1, h2] using h
      | false =>
        simpa [processMeta, h1, h2] using insertRule_sorted r s.rules h
  | attr a =>
    cases a with
    | rename v => cases h2 : s.aliasName.isSome <;> simpa [processMeta, h2] using h
    | dive => cases h2 : s.dive <;> simpa [processMeta, h2] using h
    | skip => cases h2 : s.skip <;> simpa [processMeta, h2] using h
  | unknown => simpa [processMeta] using h

theorem foldl_processMeta_rules_sorted (ms : List RuleOrAttr) (s : FieldState)
    (h : sortedByDisc s.rules = true) :
    sortedByDisc ((ms.foldl processMeta s).rules) = true := by
  induction ms generalizing s with
  | nil => simpa using h
  | cons m tl ih =>
    simp only [List.foldl_cons]
    exact ih (processMeta s m) (processMeta_rules_sorted s m h)

theorem foldl_processAttr_rules_sorted (attrs : List SynAttr) (s : FieldState)
    (h : sortedByDisc s.rules = true) :
    sortedByDisc ((attrs.foldl processAttr s).rules) = true := by
  induction attrs generalizing s with
  | nil => simpa using h
  | cons a tl ih =>
    simp only [List.foldl_cons]
    apply ih
    cases a with
    | notGarde => simpa [processAttr] using h
    | gardeBad => simpa [processAttr] using h
    | garde metas =>
      simpa [processAttr] using foldl_processMeta_rules_sorted metas s h

theorem parseField_rules_sorted (f : SynField) (p : Option String × Field)
    (h : (parseField f).2 = some p) : sortedByDisc p.2.rules = true := by
  unfold parseField at h
  dsimp only at h
  split at h
  · cases h
  · split at h
    · cases h
    · cases h
      exact foldl_processAttr_rules_sorted f.attrs initFieldState rfl

theorem filterMap_length_countP {α β : Type} (l : List α) (g : α → Option β) :
    (l.filterMap g).length = l.countP (fun a => (g a).isSome) := by
  induction l with
  | nil => simp
  | cons a tl ih =>
    cases hg : g a <;>
      simp [List.filterMap_cons, hg, List.countP_cons, ih]

/- ----------------------------------------------------------------- -/
/- Claim theorems                                                    -/
/- ----------------------------------------------------------------- -/

/-- C1: the synthesized validator for a record shape keys the field's
entry by the field's *original* name even when a `rename = "text"`
marker is present: on a record with field `x` annotated
`rename = "y", length(min = 1)` the derive succeeds and the emitted
`FieldMap` entry is keyed `"x"`, not `"y"` — `parse_fields` parses and
duplicate-checks the rename marker but never uses it
(lib.rs lines 419-424 and 459). -/
theorem c1_rename_key_dropped :
    deriveValidate c1Input =
      .impl { ident := "S", context := none,
              inner := .fieldStruct
                [("x", { ty := "String", dive := false,
                         rules := [Rule.length (some 1) none] })] }
    ∧ "x" ≠ "y" :=
  ⟨rfl, by decide⟩

/-- C2 counterexample: a field annotated `length(min = 1), dive` — a
rule and the delegate marker, with the rule first — produces *no*
"may not be used together with dive" error (its error list is empty),
and the resulting field has its delegate flag set with a *non-empty*
rule set, contradicting both parts of the claim. -/
theorem c2_rule_before_dive_unreported :
    (parseField c2Field).1 = []
    ∧ (parseField c2Field).2 =
        some (some "x", { ty := "T", dive := true,
                          rules := [Rule.length (some 1) none] })
    ∧ [Rule.length (some 1) none] ≠ ([] : List Rule) :=
  ⟨rfl, rfl, by decide⟩

/-- C2 (amended): for every field whose annotation list contains a
rule *after* the `dive` marker, definition validation reports
"`<name>` may not be used together with `dive`" for that rule, and no
rule occurring after `dive` enters the rule set — the field's final
rule set is exactly the one accumulated before the `dive` marker (so
rules written before `dive` survive even though the delegate flag is
set). -/
theorem c2_rule_after_dive_reported (f : SynField) (ms₁ ms₂ : List RuleOrAttr)
    (r : Rule)
    (hattrs : f.attrs = [SynAttr.garde (ms₁ ++ RuleOrAttr.attr Attr.dive :: ms₂)])
    (hr : RuleOrAttr.rule r ∈ ms₂) :
    DefError.ruleWithDive r.name ∈ (parseField f).1
    ∧ (parseFieldState f).rules =
        ((ms₁ ++ [RuleOrAttr.attr Attr.dive]).foldl processMeta initFieldState).rules := by
  have hstate : parseFieldState f =
      ms₂.foldl processMeta
        ((ms₁ ++ [RuleOrAttr.attr Attr.dive]).foldl processMeta initFieldState) := by
    unfold parseFieldState
    rw [hattrs]
    simp only [List.foldl_cons, List.foldl_nil, processAttr]
    have : ms₁ ++ RuleOrAttr.attr Attr.dive :: ms₂ =
        (ms₁ ++ [RuleOrAttr.attr Attr.dive]) ++ ms₂ := by simp
    rw [this, List.foldl_append]
  have hdive : ((ms₁ ++ [RuleOrAttr.attr Attr.dive]).foldl processMeta
      initFieldState).dive = true := by
    rw [List.foldl_append]
    simp only [List.foldl_cons, List.foldl_nil]
    exact processMeta_diveAttr_sets _
  constructor
  · apply parseField_errs_mem
    rw [hstate]
    exact foldl_processMeta_rule_err ms₂ _ r hdive hr
  · rw [hstate]
    exact foldl_processMeta_rules_frozen ms₂ _ hdive

/-- Witness for the amended C2 theorem at the concrete field
`#[garde(dive, length(min = 1))]`. -/
theorem c2_rule_after_dive_reported_witness :
    DefError.ruleWithDive "length" ∈ (parseField c2wField).1
    ∧ (parseFieldState c2wField).rules =
        (([] ++ [RuleOrAttr.attr Attr.dive]).foldl processMeta initFieldState).rules :=
  c2_rule_after_dive_reported c2wField []
    [RuleOrAttr.rule (Rule.length (some 1) none)] (Rule.length (some 1) none)
    rfl (List.mem_singleton.mpr rfl)

/-- C3: for the spec's union `Shape { Circle { radius: ... }, Dot }`,
the arm `VariantKind::to_tokens` emits for the unit variant `Dot` is
the empty block, which is not an expression of type `Errors` and
produces no `Errors` value — so the generated `impl` (which needs
every arm of `let errors = match self { ... }` to have type `Errors`)
does not type-check, and a `Dot` value can never reach the
`Ok(())` path the claim describes; the record-like variant's arm, by
contrast, does build the claimed `FieldMap`. -/
theorem c3_unit_variant_arm_not_errors :
    VariantKind.armBody VariantKind.unit = ArmBody.emptyBlock
    ∧ ArmBody.isErrorsTyped ArmBody.emptyBlock = false
    ∧ (∀ (γ : Type) (os : List (FieldOracle γ)) (ctx : γ),
        ArmBody.result ArmBody.emptyBlock os ctx = none)
    ∧ enumImplWellTyped shapeVariants = false
    ∧ (∀ (γ : Type) (os : List (FieldOracle γ)) (ctx : γ)
        (fs : List (String × Field)),
        ArmBody.result (VariantKind.armBody (VariantKind.struct fs)) os ctx =
          some (validateFieldStruct (fs.zip os) ctx)) :=
  ⟨rfl, rfl, fun _ _ _ => rfl, rfl, fun _ _ _ _ => rfl⟩

/-- C4: two rules are equal exactly when their kinds match, regardless
of arguments (the `PartialEq` impl compares discriminants only); a
field annotated with `length(min = 1)` and `length(max = 10)` yields
exactly one "duplicate rule `length`" error, and the derive emits the
collected errors instead of an `impl` — the shape is never promoted to
synthesis. -/
theorem c4_duplicate_rule_by_kind :
    (∀ a b : Rule, ruleEqb a b = true ↔ a.kind = b.kind)
    ∧ parseField c4Field =
        ([DefError.duplicateRule "length"],
         some (some "x", { ty := "String", dive := false,
                           rules := [Rule.length (some 1) none] }))
    ∧ deriveValidate c4Input = .errors [DefError.duplicateRule "length"]
    ∧ (deriveValidate c4Input).isImpl = false := by
  refine ⟨fun a b => ?_, rfl, rfl, rfl⟩
  cases a <;> cases b <;>
    simp only [ruleEqb, Rule.discriminant, Rule.kind] <;> decide

/-- C5: every rule set `parse_fields` produces is strictly sorted by
the rule kind's integer priority (the `BTreeSet<Rule>` iteration
order); a non-delegated field's emitted code runs the rules in exactly
that order and appends one error per failing rule without stopping at
the first failure (the error list has one entry per failing rule); and
the record validator evaluates every field — the entry list of
`fs₁ ++ fs₂` is the entry list of `fs₁` followed by that of `fs₂`
(later fields are evaluated regardless of earlier failures), with
exactly one entry per field. -/
theorem c5_priority_order_no_short_circuit :
    (∀ fs : List SynField,
       ((parseFields fs).2.all (fun p => sortedByDisc p.2.rules)) = true)
    ∧ (∀ (γ : Type) (ty : Ty) (rules : List Rule) (o : FieldOracle γ) (ctx : γ),
        (Field.mk ty false rules).run o ctx =
          .simple (rules.filterMap (fun r => o.applyRule r ctx)))
    ∧ (∀ (γ : Type) (rules : List Rule) (o : FieldOracle γ) (ctx : γ),
        (rules.filterMap (fun r => o.applyRule r ctx)).length =
          rules.countP (fun r => (o.applyRule r ctx).isSome))
    ∧ (∀ (γ : Type) (a b : List ((String × Field) × FieldOracle γ)) (ctx : γ),
        validateFieldStruct (a ++ b) ctx =
          Errors.fields (structEntries a ctx ++ structEntries b ctx))
    ∧ (∀ (γ : Type) (l : List ((String × Field) × FieldOracle γ)) (ctx : γ),
        (structEntries l ctx).length = l.length) := by
  refine ⟨?_, ?_, ?_, ?_, ?_⟩
  · intro fs
    rw [List.all_eq_true]
    intro p hp
    simp only [parseFields, List.mem_filterMap] at hp
    obtain ⟨f, _, hf⟩ := hp
    exact parseField_rules_sorted f p hf
  · intro γ ty rules o ctx
    simp [Field.run]
  · intro γ rules o ctx
    exact filterMap_length_countP rules _
  · intro γ a b ctx
    simp [validateFieldStruct, structEntries]
  · intro γ l ctx
    simp [structEntries]

/-- C6: the generated `validate` returns `Err(tree)` exactly when the
built error tree is non-empty and `Ok(())` exactly when it is empty;
the result is always one of those two — there is no other failure
path. Stated for the emitted tail `runValidate` applied to any built
tree, and instantiated at the record-shape validator. -/
theorem c6_err_iff_nonempty :
    (∀ t : Errors, runValidate t = .ok () ∨ runValidate t = .error t)
    ∧ (∀ t : Errors, runValidate t = .error t ↔ t.isEmpty = false)
    ∧ (∀ t : Errors, runValidate t = .ok () ↔ t.isEmpty = true)
    ∧ (∀ (γ : Type) (l : List ((String × Field) × FieldOracle γ)) (ctx : γ),
        runValidate (validateFieldStruct l ctx) = .ok () ↔
          (validateFieldStruct l ctx).isEmpty = true) := by
  have hdich : ∀ t : Errors, runValidate t = .ok () ∨ runValidate t = .error t := by
    intro t
    cases h : t.isEmpty <;> simp [runValidate, h]
  have herr : ∀ t : Errors, runValidate t = .error t ↔ t.isEmpty = false := by
    intro t
    cases h : t.isEmpty <;> simp [runValidate, h]
  have hok : ∀ t : Errors, runValidate t = .ok () ↔ t.isEmpty = true := by
    intro t
    cases h : t.isEmpty <;> simp [runValidate, h]
  exact ⟨hdich, herr, hok, fun γ l ctx => hok _⟩

/-- C7: a `dive` field's emitted code calls the nested value's own
`validate` with the same context `ctx` and uses the resulting error
tree verbatim — the field's entry in the record's `FieldMap` is
exactly the nested tree with no extra `Simple` layer, and is `Empty`
when the nested validation succeeds. -/
theorem c7_dive_verbatim :
    ∀ (γ : Type) (ty : Ty) (rules : List Rule) (o : FieldOracle γ) (ctx : γ),
      ((Field.mk ty true rules).run o ctx =
        match o.nestedValidate ctx with
        | .error e => e
        | .ok _ => Errors.empty)
      ∧ (∀ (k : String) (rest : List ((String × Field) × FieldOracle γ)),
          validateFieldStruct (((k, Field.mk ty true rules), o) :: rest) ctx =
            Errors.fields
              ((k,
                match o.nestedValidate ctx with
                | .error e => e
                | .ok _ => Errors.empty) :: structEntries rest ctx)) := by
  intro γ ty rules o ctx
  constructor
  · simp [Field.run]
  · intro k rest
    simp [validateFieldStruct, structEntries, Field.run]

theorem getLast?_cons_elim {α : Type} (x : α) (l : List α) :
    (x :: l).getLast? = ((l.getLast?).elim (some x) some) := by
  induction l generalizing x with
  | nil => simp
  | cons y ys ih =>
    cases hz : ys.getLast? <;>
      simp [List.getLast?_cons_cons, ih, hz]

theorem ctxFold_spec (attrs : List CtxAttr) (e0 : List DefError) (i0 : Option Ty) :
    List.foldl ctxStep (e0, i0) attrs =
      (e0 ++ attrs.filterMap ctxBadErr,
       ((attrs.filterMap ctxOkTy).getLast?).elim i0 some) := by
  induction attrs generalizing e0 i0 with
  | nil => simp
  | cons a tl ih =>
    cases a with
    | notGarde => simp [ctxStep, ctxBadErr, ctxOkTy, ih]
    | bad e => simp [ctxStep, ctxBadErr, ctxOkTy, ih]
    | ok ty =>
      simp only [List.foldl_cons, ctxStep, List.filterMap_cons, ctxBadErr, ctxOkTy]
      rw [ih, getLast?_cons_elim]
      cases hz : (tl.filterMap ctxOkTy).getLast? <;> simp [hz]

/-- C9: definition errors are collected exhaustively across the whole
shape — the errors of `fs₁ ++ fs₂` are the errors of `fs₁` followed by
the errors of `fs₂` and the meta loop only ever appends to the error
vector — and whenever at least one definition error exists,
`derive_validate` emits the errors and no validator `impl`. -/
theorem c9_exhaustive_errors_block_impl :
    (∀ fs₁ fs₂ : List SynField,
       parseFields (fs₁ ++ fs₂) =
         ((parseFields fs₁).1 ++ (parseFields fs₂).1,
          (parseFields fs₁).2 ++ (parseFields fs₂).2))
    ∧ (∀ (s : FieldState) (ms : List RuleOrAttr),
        ∃ t, (ms.foldl processMeta s).errs = s.errs ++ t)
    ∧ (∀ input : DeriveInput,
        (deriveValidate input).isImpl = (deriveErrors input).isEmpty)
    ∧ (∀ input : DeriveInput,
        (∃ v, deriveValidate input = .impl v) ∨
          deriveValidate input = .errors (deriveErrors input)) := by
  refine ⟨?_, ?_, ?_, ?_⟩
  · intro fs₁ fs₂
    simp [parseFields]
  · intro s ms
    exact foldl_processMeta_errs_prefix ms s
  · intro input
    unfold deriveValidate deriveErrors
    rcases hpk : parseInputKind input.data with ⟨fe, r⟩
    cases r with
    | error e => simp [DeriveOutput.isImpl]
    | ok inner =>
      cases hce : ((parseContext input.attrs).1 ++ fe).isEmpty <;>
        simp [DeriveOutput.isImpl, hce]
  · intro input
    unfold deriveValidate deriveErrors
    rcases hpk : parseInputKind input.data with ⟨fe, r⟩
    cases r with
    | error e => right; rfl
    | ok inner =>
      cases hce : ((parseContext input.attrs).1 ++ fe).isEmpty with
      | true =>
        left
        exact ⟨{ ident := input.ident, context := (parseContext input.attrs).2,
                 inner := inner }, by simp [hce]⟩
      | false => right; simp [hce]

theorem optBudget_none : optBudget none = 0 := rfl

theorem optBudget_some (n : Nat) : optBudget (some n) = 1 := rfl

theorem isUsizeIntLit_exists (v : RsExpr) (h : isUsizeIntLit v = true) :
    ∃ n, v = .intLit n ∧ n ≤ usizeMax := by
  cases v with
  | intLit n =>
    refine ⟨n, rfl, ?_⟩
    simpa [isUsizeIntLit] using h
  | closure => simp [isUsizeIntLit] at h
  | path s => simp [isUsizeIntLit] at h
  | other => simp [isUsizeIntLit] at h

theorem lengthFold_error_absorb (ps : List MetaNameValue) (e : DefError) :
    ps.foldl lengthStep (.error e) = .error e := by
  induction ps with
  | nil => rfl
  | cons p tl ih => simpa [lengthStep] using ih

theorem lengthOkCond_cons_min_iff (p : MetaNameValue) (tl : List MetaNameValue)
    (mx : Option Nat) (n : Nat) (hmin : p.path = "min")
    (hv : p.value = .intLit n) (hn : n ≤ usizeMax) :
    lengthOkCond (p :: tl) none mx ↔ lengthOkCond tl (some n) mx := by
  have hminp : isMinPart p = true := by
    simp only [isMinPart, hmin]; decide
  have hmaxne : isMaxPart p = false := by
    simp only [isMaxPart, hmin]; decide
  have hc1 : (p :: tl).countP isMinPart = tl.countP isMinPart + 1 := by
    simp [List.countP_cons, hminp]
  have hc2 : (p :: tl).countP isMaxPart = tl.countP isMaxPart := by
    simp [List.countP_cons, hmaxne]
  unfold lengthOkCond
  rw [List.forall_mem_cons, hc1, hc2, optBudget_none, optBudget_some]
  constructor
  · rintro ⟨⟨_, htl⟩, h1, h2⟩
    exact ⟨htl, by omega, by omega⟩
  · rintro ⟨htl, h1, h2⟩
    refine ⟨⟨⟨Or.inl hmin, ?_⟩, htl⟩, by omega, by omega⟩
    rw [hv]
    simpa [isUsizeIntLit] using hn

theorem lengthOkCond_cons_max_iff (p : MetaNameValue) (tl : List MetaNameValue)
    (mn : Option Nat) (n : Nat) (hmax : p.path = "max")
    (hv : p.value = .intLit n) (hn : n ≤ usizeMax) :
    lengthOkCond (p :: tl) mn none ↔ lengthOkCond tl mn (some n) := by
  have hmaxp : isMaxPart p = true := by
    simp only [isMaxPart, hmax]; decide
  have hminne : isMinPart p = false := by
    simp only [isMinPart, hmax]; decide
  have hc1 : (p :: tl).countP isMinPart = tl.countP isMinPart := by
    simp [List.countP_cons, hminne]
  have hc2 : (p :: tl).countP isMaxPart = tl.countP isMaxPart + 1 := by
    simp [List.countP_cons, hmaxp]
  unfold lengthOkCond
  rw [List.forall_mem_cons, hc1, hc2, optBudget_none, optBudget_some]
  constructor
  · rintro ⟨⟨_, htl⟩, h1, h2⟩
    exact ⟨htl, by omega, by omega⟩
  · rintro ⟨htl, h1, h2⟩
    refine ⟨⟨⟨Or.inr hmax, ?_⟩, htl⟩, by omega, by omega⟩
    rw [hv]
    simpa [isUsizeIntLit] using hn

theorem specMinVal_cons_of_min (p : MetaNameValue) (tl : List MetaNameValue)
    (n : Nat) (hmin : p.path = "min") (hv : p.value = .intLit n)
    (hn : n ≤ usizeMax) : specMinVal (p :: tl) = some n := by
  unfold specMinVal
  rw [List.find?_cons_of_pos]
  · simp [hv, hn]
  · simp [hmin]

theorem specMinVal_cons_of_ne (p : MetaNameValue) (tl : List MetaNameValue)
    (hmin : ¬ p.path = "min") : specMinVal (p :: tl) = specMinVal tl := by
  unfold specMinVal
  rw [List.find?_cons_of_neg]
  simp [hmin]

theorem specMinVal_eq_none (tl : List MetaNameValue)
    (h : tl.countP isMinPart = 0) : specMinVal tl = none := by
  unfold specMinVal
  rw [List.find?_eq_none.mpr]
  · rfl
  · intro x hx
    have := List.countP_eq_zero.mp h x hx
    simpa [isMinPart] using this

theorem specMaxVal_cons_of_max (p : MetaNameValue) (tl : List MetaNameValue)
    (n : Nat) (hmax : p.path = "max") (hv : p.value = .intLit n)
    (hn : n ≤ usizeMax) : specMaxVal (p :: tl) = some n := by
  unfold specMaxVal
  rw [List.find?_cons_of_pos]
  · simp [hv, hn]
  · simp [hmax]

theorem specMaxVal_cons_of_ne (p : MetaNameValue) (tl : List MetaNameValue)
    (hmax : ¬ p.path = "max") : specMaxVal (p :: tl) = specMaxVal tl := by
  unfold specMaxVal
  rw [List.find?_cons_of_neg]
  simp [hmax]

theorem specMaxVal_eq_none (tl : List MetaNameValue)
    (h : tl.countP isMaxPart = 0) : specMaxVal tl = none := by
  unfold specMaxVal
  rw [List.find?_eq_none.mpr]
  · rfl
  · intro x hx
    have := List.countP_eq_zero.mp h x hx
    simpa [isMaxPart] using this

theorem lengthFold_ok (ps : List MetaNameValue) :
    ∀ (mn mx : Option Nat), lengthOkCond ps mn mx →
      ps.foldl lengthStep (.ok (mn, mx)) =
        .ok ((specMinVal ps).elim mn some, (specMaxVal ps).elim mx some) := by
  induction ps with
  | nil =>
    intro mn mx _
    simp [specMinVal, specMaxVal]
  | cons p tl ih =>
    intro mn mx h
    obtain ⟨hall, hminc, hmaxc⟩ := h
    obtain ⟨⟨hpath, hval⟩, htl⟩ := List.forall_mem_cons.mp hall
    obtain ⟨n, hv, hn⟩ := isUsizeIntLit_exists _ hval
    rcases hpath with hmin | hmax
    · have hminp : isMinPart p = true := by
        simp only [isMinPart, hmin]; decide
      have hcons : (p :: tl).countP isMinPart = tl.countP isMinPart + 1 := by
        simp [List.countP_cons, hminp]
      have hmn : mn = none := by
        cases mn with
        | none => rfl
        | some v =>
          exfalso
          rw [optBudget_some, hcons] at hminc
          omega
      subst hmn
      have hcount : tl.countP isMinPart = 0 := by
        rw [optBudget_none, hcons] at hminc
        omega
      have hstep : lengthStep (.ok (none, mx)) p = .ok (some n, mx) := by
        simp [lengthStep, hmin, hv, hn]
      rw [List.foldl_cons, hstep,
        ih (some n) mx ((lengthOkCond_cons_min_iff p tl mx n hmin hv hn).mp
          ⟨hall, by rw [optBudget_none]; exact hminc, hmaxc⟩)]
      rw [specMinVal_cons_of_min p tl n hmin hv hn, specMinVal_eq_none tl hcount,
        specMaxVal_cons_of_ne p tl (by rw [hmin]; decide)]
      rfl
    · have hmaxp : isMaxPart p = true := by
        simp only [isMaxPart, hmax]; decide
      have hcons : (p :: tl).countP isMaxPart = tl.countP isMaxPart + 1 := by
        simp [List.countP_cons, hmaxp]
      have hmx : mx = none := by
        cases mx with
        | none => rfl
        | some v =>
          exfalso
          rw [optBudget_some, hcons] at hmaxc
          omega
      subst hmx
      have hcount : tl.countP isMaxPart = 0 := by
        rw [optBudget_none, hcons] at hmaxc
        omega
      have hminne : p.path = "min" → False := by
        intro hcontra
        rw [hcontra] at hmax
        exact absurd hmax (by decide)
      have hstep : lengthStep (.ok (mn, none)) p = .ok (mn, some n) := by
        simp [lengthStep, hmax, hv, hn, hminne]
      rw [List.foldl_cons, hstep,
        ih mn (some n) ((lengthOkCond_cons_max_iff p tl mn n hmax hv hn).mp
          ⟨hall, hminc, by rw [optBudget_none]; exact hmaxc⟩)]
      rw [specMaxVal_cons_of_max p tl n hmax hv hn, specMaxVal_eq_none tl hcount,
        specMinVal_cons_of_ne p tl hminne]
      rfl

theorem lengthFold_err (ps : List MetaNameValue) :
    ∀ (mn mx : Option Nat), ¬ lengthOkCond ps mn mx →
      exceptOk (ps.foldl lengthStep (.ok (mn, mx))) = false := by
  induction ps with
  | nil =>
    intro mn mx h
    exfalso
    apply h
    refine ⟨by simp, ?_, ?_⟩ <;>
      · cases mn <;> cases mx <;> simp [optBudget]
  | cons p tl ih =>
    intro mn mx h
    by_cases hmin : p.path = "min"
    · cases mn with
      | some v =>
        have hstep : lengthStep (.ok (some v, mx)) p = .error .duplicateArg := by
          simp [lengthStep, hmin]
        rw [List.foldl_cons, hstep, lengthFold_error_absorb]
        rfl
      | none =>
        by_cases hval : isUsizeIntLit p.value = true
        · obtain ⟨n, hv, hn⟩ := isUsizeIntLit_exists _ hval
          have hstep : lengthStep (.ok (none, mx)) p = .ok (some n, mx) := by
            simp [lengthStep, hmin, hv, hn]
          rw [List.foldl_cons, hstep]
          apply ih
          intro hc
          exact h ((lengthOkCond_cons_min_iff p tl mx n hmin hv hn).mpr hc)
        · cases hv : p.value with
          | intLit n =>
            have hn : ¬ n ≤ usizeMax := by
              intro hle
              apply hval
              rw [hv]
              simpa [isUsizeIntLit] using hle
            have hstep : lengthStep (.ok (none, mx)) p = .error .intOverflow := by
              simp [lengthStep, hmin, hv, hn]
            rw [List.foldl_cons, hstep, lengthFold_error_absorb]
            rfl
          | closure =>
            have hstep : lengthStep (.ok (none, mx)) p = .error .valueMustBeUsize := by
              simp [lengthStep, hmin, hv]
            rw [List.foldl_cons, hstep, lengthFold_error_absorb]
            rfl
          | path s =>
            have hstep : lengthStep (.ok (none, mx)) p = .error .valueMustBeUsize := by
              simp [lengthStep, hmin, hv]
            rw [List.foldl_cons, hstep, lengthFold_error_absorb]
            rfl
          | other =>
            have hstep : lengthStep (.ok (none, mx)) p = .error .valueMustBeUsize := by
              simp [lengthStep, hmin, hv]
            rw [List.foldl_cons, hstep, lengthFold_error_absorb]
            rfl
    · by_cases hmax : p.path = "max"
      · cases mx with
        | some v =>
          have hstep : lengthStep (.ok (mn, some v)) p = .error .duplicateArg := by
            simp [lengthStep, hmin, hmax]
          rw [List.foldl_cons, hstep, lengthFold_error_absorb]
          rfl
        | none =>
          by_cases hval : isUsizeIntLit p.value = true
          · obtain ⟨n, hv, hn⟩ := isUsizeIntLit_exists _ hval
            have hstep : lengthStep (.ok (mn, none)) p = .ok (mn, some n) := by
              simp [lengthStep, hmin, hmax, hv, hn]
            rw [List.foldl_cons, hstep]
            apply ih
            intro hc
            exact h ((lengthOkCond_cons_max_iff p tl mn n hmax hv hn).mpr hc)
          · cases hv : p.value with
            | intLit n =>
              have hn : ¬ n ≤ usizeMax := by
                intro hle
                apply hval
                rw [hv]
                simpa [isUsizeIntLit] using hle
              have hstep : lengthStep (.ok (mn, none)) p = .error .intOverflow := by
                simp [lengthStep, hmin, hmax, hv, hn]
              rw [List.foldl_cons, hstep, lengthFold_error_absorb]
              rfl
            | closure =>
              have hstep : lengthStep (.ok (mn, none)) p = .error .valueMustBeUsize := by
                simp [lengthStep, hmin, hmax, hv]
              rw [List.foldl_cons, hstep, lengthFold_error_absorb]
              rfl
            | path s =>
              have hstep : lengthStep (.ok (mn, none)) p = .error .valueMustBeUsize := by
                simp [lengthStep, hmin, hmax, hv]
              rw [List.foldl_cons, hstep, lengthFold_error_absorb]
              rfl
            | other =>
              have hstep : lengthStep (.ok (mn, none)) p = .error .valueMustBeUsize := by
                simp [lengthStep, hmin, hmax, hv]
              rw [List.foldl_cons, hstep, lengthFold_error_absorb]
              rfl
      · have hstep : lengthStep (.ok (mn, mx)) p = .error (.unexpectedArg p.path) := by
          simp [lengthStep, hmin, hmax]
        rw [List.foldl_cons, hstep, lengthFold_error_absorb]
        rfl

/-- C8: parsing `length(...)` succeeds exactly when every argument is
named `min` or `max` with a non-negative integer literal value (one
that `base10_parse::<usize>` accepts), no argument name is repeated,
at least one of `min`/`max` is present, and whenever both are present
`min < max`; otherwise it fails with a definition error. -/
theorem c8_length_parse_iff (parts : List MetaNameValue) :
    (∃ r, parseRuleLength parts = .ok r) ↔ LengthSpec parts := by
  by_cases hc : lengthOkCond parts none none
  · have hfold := lengthFold_ok parts none none hc
    obtain ⟨hall, hminc, hmaxc⟩ := hc
    rw [optBudget_none] at hminc hmaxc
    simp only [Nat.zero_add] at hminc hmaxc
    unfold parseRuleLength
    rw [hfold]
    cases hmnv : specMinVal parts with
    | some a =>
      cases hmxv : specMaxVal parts with
      | some b =>
        by_cases hab : a ≥ b
        · simp only [Option.elim, hab, ge_iff_le, if_pos]
          constructor
          · rintro ⟨r, hr⟩
            cases hr
          · rintro ⟨_, _, _, _, hlt⟩
            exact absurd (hlt a b hmnv hmxv) (by omega)
        · refine ⟨fun _ => ?_, fun _ => ?_⟩
          · have hp : ∃ p ∈ parts, p.path = "min" := by
              obtain ⟨q, hq⟩ : ∃ q, parts.find? (fun p => p.path == "min") = some q := by
                unfold specMinVal at hmnv
                cases hfq : parts.find? (fun p => p.path == "min") with
                | none => rw [hfq] at hmnv; cases hmnv
                | some q => exact ⟨q, rfl⟩
              refine ⟨q, List.mem_of_find?_eq_some hq, ?_⟩
              have := List.find?_some hq
              simpa using this
            refine ⟨hall, hminc, hmaxc, Or.inl hp, ?_⟩
            intro a2 b2 ha2 hb2
            rw [hmnv] at ha2
            rw [hmxv] at hb2
            cases ha2
            cases hb2
            omega
          · refine ⟨Rule.length (some a) (some b), ?_⟩
            simp [Option.elim, hab]
      | none =>
        refine ⟨fun _ => ?_, fun _ => ?_⟩
        · have hp : ∃ p ∈ parts, p.path = "min" := by
            obtain ⟨q, hq⟩ : ∃ q, parts.find? (fun p => p.path == "min") = some q := by
              unfold specMinVal at hmnv
              cases hfq : parts.find? (fun p => p.path == "min") with
              | none => rw [hfq] at hmnv; cases hmnv
              | some q => exact ⟨q, rfl⟩
            refine ⟨q, List.mem_of_find?_eq_some hq, ?_⟩
            have := List.find?_some hq
            simpa using this
          refine ⟨hall, hminc, hmaxc, Or.inl hp, ?_⟩
          intro a2 b2 _ hb2
          rw [hmxv] at hb2
          cases hb2
        · exact ⟨Rule.length (some a) none, by simp [Option.elim]⟩
    | none =>
      cases hmxv : specMaxVal parts with
      | some b =>
        refine ⟨fun _ => ?_, fun _ => ?_⟩
        · have hp : ∃ p ∈ parts, p.path = "max" := by
            obtain ⟨q, hq⟩ : ∃ q, parts.find? (fun p => p.path == "max") = some q := by
              unfold specMaxVal at hmxv
              cases hfq : parts.find? (fun p => p.path == "max") with
              | none => rw [hfq] at hmxv; cases hmxv
              | some q => exact ⟨q, rfl⟩
            refine ⟨q, List.mem_of_find?_eq_some hq, ?_⟩
            have := List.find?_some hq
            simpa using this
          refine ⟨hall, hminc, hmaxc, Or.inr hp, ?_⟩
          intro a2 b2 ha2 _
          rw [hmnv] at ha2
          cases ha2
        · exact ⟨Rule.length none (some b), by simp [Option.elim]⟩
      | none =>
        simp only [Option.elim]
        constructor
        · rintro ⟨r, hr⟩
          cases hr
        · rintro ⟨_, _, _, hpresent, _⟩
          rcases hpresent with ⟨q, hq, hqmin⟩ | ⟨q, hq, hqmax⟩
          · obtain ⟨n, hv, hn⟩ :=
              isUsizeIntLit_exists _ (hall q hq).2
            have : specMinVal parts ≠ none := by
              unfold specMinVal
              cases hfq : parts.find? (fun p => p.path == "min") with
              | none =>
                exfalso
                have := List.find?_eq_none.mp hfq q hq
                simp [hqmin] at this
              | some w =>
                have hwmem := List.mem_of_find?_eq_some hfq
                have hwmin : w.path = "min" := by
                  have := List.find?_some hfq
                  simpa using this
                obtain ⟨m, hwv, hwn⟩ := isUsizeIntLit_exists _ (hall w hwmem).2
                simp [hwv, hwn]
            exact absurd hmnv this
          · obtain ⟨n, hv, hn⟩ :=
              isUsizeIntLit_exists _ (hall q hq).2
            have : specMaxVal parts ≠ none := by
              unfold specMaxVal
              cases hfq : parts.find? (fun p => p.path == "max") with
              | none =>
                exfalso
                have := List.find?_eq_none.mp hfq q hq
                simp [hqmax] at this
              | some w =>
                have hwmem := List.mem_of_find?_eq_some hfq
                have hwmax : w.path = "max" := by
                  have := List.find?_some hfq
                  simpa using this
                obtain ⟨m, hwv, hwn⟩ := isUsizeIntLit_exists _ (hall w hwmem).2
                simp [hwv, hwn]
            exact absurd hmxv this
  · have hfold := lengthFold_err parts none none hc
    constructor
    · rintro ⟨r, hr⟩
      exfalso
      unfold parseRuleLength at hr
      cases hf : parts.foldl lengthStep (.ok (none, none)) with
      | error e => rw [hf] at hr; cases hr
      | ok v => rw [hf] at hfold; simp [exceptOk] at hfold
    · rintro ⟨hall, hminc, hmaxc, _, _⟩
      exfalso
      exact hc ⟨hall, by rw [optBudget_none]; simpa using hminc,
        by rw [optBudget_none]; simpa using hmaxc⟩

/-- C10: `parse_context` raises no duplicate-attribute error — its
errors are exactly the per-attribute parse failures — and each
successfully parsed `context(T)` declaration overwrites the previous
one, so the last declared type wins; when none is declared the emitted
context type is the unit type `()`. -/
theorem c10_last_context_wins :
    (∀ attrs : List CtxAttr,
       parseContext attrs =
         (attrs.filterMap ctxBadErr, (attrs.filterMap ctxOkTy).getLast?))
    ∧ contextTokens none = "()"
    ∧ parseContext [CtxAttr.ok "A", CtxAttr.ok "B"] = ([], some "B") := by
  refine ⟨fun attrs => ?_, rfl, rfl⟩
  unfold parseContext
  rw [ctxFold_spec]
  cases hz : (attrs.filterMap ctxOkTy).getLast? <;> simp [hz]

end Garde
